import Mathlib

/-!
Verification of the data-structure code in `src/ds/dyn_array.c` and
`src/ds/linked_list.c`: a generic (type-erased) dynamic array storing raw
bytes, and a singly-linked list of integers with head/tail tracking.

The dynamic array is embedded with its raw buffer as a `List Nat` of bytes
(`items`), together with `count`, `cap` and `size` mirroring the fields of
the C `DynArray` struct.  `memcpy` is modelled by `writeBytes`/`readBytes`
splices on the byte list.  Bytes that the C code leaves uninitialized
(fresh `malloc` memory) are modelled as `0`; no operation under its caller
contract ever reads them.

The linked list is embedded with an explicit heap: a `List` of nodes in
allocation order, where an address is an index into that list and a C
`NULL` pointer is `Option.none`.  This keeps node identity, the `tail`
back-pointer and potential cycles observable, exactly as in the C code.
-/

namespace DynArr

/-- The C `DynArray` struct: `items` is the owned byte buffer of
`cap * size` bytes, `count` the number of live elements, `cap` the number
of allocated element slots, `size` the fixed element size in bytes. -/
structure DynArray where
  items : List Nat
  count : Nat
  cap   : Nat
  size  : Nat
  deriving Repr, DecidableEq

/-- Model of `memcpy(buf + off, src, src.length)`: overwrite `src.length` bytes of
`buf` starting at byte offset `off`. -/
def writeBytes (buf : List Nat) (off : Nat) (src : List Nat) : List Nat :=
  buf.take off ++ src ++ buf.drop (off + src.length)

/-- Read `len` bytes of `buf` starting at byte offset `off` (the source of
a `memcpy` out of the array). -/
def readBytes (buf : List Nat) (off len : Nat) : List Nat :=
  (buf.drop off).take len

/-- The function `new_dyn_array` (src/ds/dyn_array.c:53-66): count 0, capacity 2, the
given element size, and a fresh `malloc(size * cap)` buffer (uninitialized
bytes modelled as 0). -/
def new_dyn_array (size : Nat) : DynArray :=
  { count := 0, cap := 2, size := size, items := List.replicate (size * 2) 0 }

/-- The resize branch of `push_dyn_array`: if `count >= cap`, double `cap`,
allocate a `cap * size`-byte buffer, `memcpy` the `size * count` live bytes
into it and free the old buffer. -/
def grow (a : DynArray) : DynArray :=
  if a.cap ≤ a.count then
    { a with
      cap := a.cap * 2,
      items := a.items.take (a.size * a.count) ++
        List.replicate (a.cap * 2 * a.size - a.size * a.count) 0 }
  else a

/-- The function `push_dyn_array` (src/ds/dyn_array.c:75-106): resize if full, then
`memcpy` the element's bytes to offset `size * count` and increment
`count`.  `val` must hold `size` bytes (caller contract of the C code). -/
def push_dyn_array (a : DynArray) (val : List Nat) : DynArray :=
  let g := grow a
  { g with
    items := writeBytes g.items (g.size * g.count) val,
    count := g.count + 1 }

/-- The function `pop_dyn_array` (src/ds/dyn_array.c:122-135): on an empty array return
0 leaving the out-buffer untouched; otherwise `memcpy` the element at
offset `(count - 1) * size` into the out-buffer, decrement `count`, return
1.  The result carries the final array, the final contents of the caller's
out-buffer, and the C return code. -/
def pop_dyn_array (a : DynArray) (popped : List Nat) : DynArray × List Nat × Nat :=
  if a.count = 0 then
    (a, popped, 0)
  else
    let src := readBytes a.items ((a.count - 1) * a.size) a.size
    ({ a with count := a.count - 1 }, writeBytes popped 0 src, 1)

/-- Modelled from the spec: `elementAt(index)` is "valid only for
`index < length`; fails with `IndexOutOfRange` otherwise".  The source has
no checked accessor — `print_user_array` (src/ds/dyn_array.c:144-154)
computes `items + size * i` unchecked — so the bounds check comes from the
spec while the address arithmetic is the source's. -/
def elementAt (a : DynArray) (i : Nat) : Option (List Nat) :=
  if i < a.count then some (readBytes a.items (a.size * i) a.size) else none

/-- A whole sequence of pushes, in order. -/
def pushAll (a : DynArray) (vals : List (List Nat)) : DynArray :=
  vals.foldl push_dyn_array a

/-- Structural invariant of a `DynArray` (spec §3): `count ≤ cap`, the
buffer really holds `cap * size` bytes (the "storage non-null when
`cap > 0`" allocation contract), and `cap` is positive (it starts at 2 and
only doubles). -/
def Inv (a : DynArray) : Prop :=
  a.count ≤ a.cap ∧ a.items.length = a.cap * a.size ∧ 0 < a.cap

/-- Abstraction relation: the array represents the sequence `vals` of
pushed elements — each of `size` bytes, `count` of them, laid out
back-to-back at the start of the buffer. -/
def ReprArr (a : DynArray) (vals : List (List Nat)) : Prop :=
  Inv a ∧ a.count = vals.length ∧ (∀ v ∈ vals, v.length = a.size) ∧
    a.items.take (a.size * a.count) = vals.flatten

instance decidableInv (a : DynArray) : Decidable (Inv a) := by
  unfold Inv; infer_instance

instance decidableReprArr (a : DynArray) (vals : List (List Nat)) :
    Decidable (ReprArr a vals) := by
  unfold ReprArr; infer_instance

end DynArr

namespace LL

/-- The C `IntNode` struct: `next` is the address of the following node,
with `none` for `NULL`, and `value` is the stored integer. -/
structure IntNode where
  next  : Option Nat
  value : Int
  deriving Repr, DecidableEq

/-- The C `IntList` struct: head and tail node addresses, `none` for
`NULL`. -/
structure IntList where
  head : Option Nat
  tail : Option Nat
  deriving Repr, DecidableEq

/-- The heap of `malloc`-allocated nodes, in allocation order; a node's
address is its index.  Addresses are stable and no node is freed in the
source. -/
abbrev Heap := List IntNode

/-- The initializer `IntList numbers = {NULL, NULL}` (the `createEmpty` of
the spec). -/
def empty_list : IntList := { head := none, tail := none }

/-- The function `push_node` (src/ds/linked_list.c:119-133,
src/unnamed/part_000:17-30): allocate a node holding the value with no
successor; if `head` is `NULL` the node becomes the head, otherwise it is
hung off the current tail via `list->tail->next = node`; it becomes the
tail unconditionally.  Dereferencing a `NULL` or dangling `tail` would be
a fault, modelled as `none`. -/
def push_node (h : Heap) (l : IntList) (v : Int) : Option (Heap × IntList) :=
  let addr := h.length
  let h1 := h ++ [{ next := none, value := v }]
  match l.head with
  | none => some (h1, { head := some addr, tail := some addr })
  | some _ =>
    match l.tail with
    | none => none
    | some t =>
      match h1[t]? with
      | none => none
      | some nd =>
        some (h1.set t { nd with next := some addr }, { head := l.head, tail := some addr })

/-- The recursion of `walk_and_print_list` from a node address: visit the
node, then recurse on `next` while one is present, collecting the visited
values.  `fuel` bounds the recursion depth (on a heap with a cycle the C
recursion would never return; such heaps are never produced).  Looking up
a dangling address is a fault, modelled as `none`. -/
def walkFrom (h : Heap) : Nat → Nat → Option (List Int)
  | 0, _ => none
  | fuel + 1, addr =>
    match h[addr]? with
    | none => none
    | some nd =>
      match nd.next with
      | none => some [nd.value]
      | some nxt => (walkFrom h fuel nxt).map (fun vs => nd.value :: vs)

/-- The function `walk_and_print_list` (src/ds/linked_list.c:151-159,
src/unnamed/part_000:36-41) applied to a node pointer that may be `NULL`:
the body unconditionally dereferences its argument (`pfn(node)`, then
`node->next`), so a `NULL` start is a fault, modelled as `none`. -/
def walk_and_print_list (h : Heap) (fuel : Nat) (start : Option Nat) : Option (List Int) :=
  match start with
  | none => none
  | some a => walkFrom h fuel a

/-- A whole sequence of `push_node` calls, in order. -/
def pushAllNodes (h : Heap) (l : IntList) : List Int → Option (Heap × IntList)
  | [] => some (h, l)
  | v :: vs =>
    match push_node h l v with
    | none => none
    | some (h1, l1) => pushAllNodes h1 l1 vs

/-- A proposition `Chain h addrs` saying `addrs` is an exact,
`NULL`-terminated path of `next` links through the heap: every listed
address is allocated, each node links to the following listed address, and
the last has `next = NULL`. -/
def Chain (h : Heap) : List Nat → Prop
  | [] => False
  | [a] => (h[a]?).map IntNode.next = some none
  | a :: b :: rest => (h[a]?).map IntNode.next = some (some b) ∧ Chain h (b :: rest)

instance decidableChain (h : Heap) : ∀ addrs, Decidable (Chain h addrs)
  | [] => by unfold Chain; infer_instance
  | [_] => by unfold Chain; infer_instance
  | _ :: b :: rest =>
    have : Decidable (Chain h (b :: rest)) := decidableChain h (b :: rest)
    by unfold Chain; infer_instance

/-- Well-formedness of a list state (spec §3 invariants): an empty list
has both pointers `NULL`; a non-empty list's `head` starts and `tail` ends
the chain of node addresses `addrs`. -/
def Wf (h : Heap) (l : IntList) : List Nat → Prop
  | [] => l.head = none ∧ l.tail = none
  | a :: rest => l.head = some a ∧ l.tail = (a :: rest).getLast? ∧ Chain h (a :: rest)

instance decidableWf (h : Heap) (l : IntList) : ∀ addrs, Decidable (Wf h l addrs)
  | [] => by unfold Wf; infer_instance
  | _ :: _ => by unfold Wf; infer_instance

/-- The values stored at a list of node addresses (a dangling address
reads as a default value; under `Chain` that is never reached). -/
def valuesAt (h : Heap) (addrs : List Nat) : List Int :=
  addrs.map (fun a => ((h[a]?).map IntNode.value).getD 0)

end LL

namespace DynArr

theorem length_flatten_of_forall {n : Nat} {vals : List (List Nat)}
    (h : ∀ v ∈ vals, v.length = n) : vals.flatten.length = n * vals.length := by
  induction vals with
  | nil => simp
  | cons v vs ih =>
    simp only [List.flatten_cons, List.length_append, List.length_cons]
    rw [h v (by simp), ih (fun w hw => h w (by simp [hw]))]
    ring

theorem size_grow (a : DynArray) : (grow a).size = a.size := by
  unfold grow; split <;> rfl

theorem count_grow (a : DynArray) : (grow a).count = a.count := by
  unfold grow; split <;> rfl

theorem size_push (a : DynArray) (v : List Nat) :
    (push_dyn_array a v).size = a.size := by
  simp [push_dyn_array, size_grow]

theorem count_push (a : DynArray) (v : List Nat) :
    (push_dyn_array a v).count = a.count + 1 := by
  simp [push_dyn_array, count_grow]

/-- Growing preserves the representation and leaves room for one more
element. -/
theorem repr_grow {a : DynArray} {vals : List (List Nat)}
    (h : ReprArr a vals) :
    ReprArr (grow a) vals ∧ (grow a).count < (grow a).cap := by
  obtain ⟨⟨hcnt, hlen, hcap⟩, hcv, hsz, htake⟩ := h
  unfold grow
  by_cases hful : a.cap ≤ a.count
  · have hceq : a.count = a.cap := Nat.le_antisymm hcnt hful
    have hbytes : a.size * a.count ≤ a.cap * a.size := by
      rw [hceq, Nat.mul_comm]
    simp only [if_pos hful]
    have htklen : (a.items.take (a.size * a.count)).length = a.size * a.count := by
      rw [List.length_take, hlen]
      exact Nat.min_eq_left hbytes
    have hsub : a.size * a.count ≤ a.cap * 2 * a.size := by
      calc a.size * a.count ≤ a.cap * a.size := hbytes
        _ ≤ a.cap * 2 * a.size := by
            apply Nat.mul_le_mul_right
            omega
    refine ⟨⟨⟨?_, ?_, ?_⟩, hcv, hsz, ?_⟩, ?_⟩
    · simp only; omega
    · simp only [List.length_append, List.length_replicate, htklen]
      omega
    · simp only; omega
    · simp only
      rw [List.take_append_eq_append_take, htklen, Nat.sub_self, List.take_zero,
        List.append_nil, List.take_take, Nat.min_self, htake]
    · show a.count < a.cap * 2
      omega
  · simp only [if_neg hful]
    exact ⟨⟨⟨hcnt, hlen, hcap⟩, hcv, hsz, htake⟩, by omega⟩

theorem length_writeBytes {buf src : List Nat} {off : Nat}
    (h : off + src.length ≤ buf.length) :
    (writeBytes buf off src).length = buf.length := by
  unfold writeBytes
  simp only [List.length_append, List.length_take, List.length_drop]
  omega

/-- Writing the element's bytes into the slot at `count` (the second half
of `push_dyn_array`) extends the represented sequence by that element. -/
theorem repr_write {g : DynArray} {vals : List (List Nat)} {v : List Nat}
    (hr : ReprArr g vals) (hlt : g.count < g.cap) (hv : v.length = g.size) :
    ReprArr
      { g with items := writeBytes g.items (g.size * g.count) v, count := g.count + 1 }
      (vals ++ [v]) := by
  obtain ⟨⟨hcnt, hlen, hcap⟩, hcv, hsz, htake⟩ := hr
  have hb1 : g.size * g.count + g.size ≤ g.items.length := by
    rw [hlen]
    calc g.size * g.count + g.size = g.size * (g.count + 1) := by ring
      _ ≤ g.size * g.cap := Nat.mul_le_mul_left _ hlt
      _ = g.cap * g.size := Nat.mul_comm _ _
  have htklen : (g.items.take (g.size * g.count)).length = g.size * g.count := by
    rw [List.length_take]
    exact Nat.min_eq_left (by omega)
  refine ⟨⟨?_, ?_, ?_⟩, ?_, ?_, ?_⟩
  · show g.count + 1 ≤ g.cap
    omega
  · show (writeBytes g.items (g.size * g.count) v).length = g.cap * g.size
    rw [length_writeBytes (by omega), hlen]
  · exact hcap
  · show g.count + 1 = (vals ++ [v]).length
    simp [hcv]
  · intro w hw
    rcases List.mem_append.mp hw with h1 | h1
    · exact hsz w h1
    · simp only [List.mem_singleton] at h1
      subst h1; exact hv
  · show (writeBytes g.items (g.size * g.count) v).take (g.size * (g.count + 1)) =
      (vals ++ [v]).flatten
    unfold writeBytes
    have hplen : (g.items.take (g.size * g.count) ++ v).length = g.size * (g.count + 1) := by
      rw [List.length_append, htklen, hv]; ring
    rw [List.take_append_eq_append_take, hplen, Nat.sub_self, List.take_zero,
      List.append_nil, List.take_of_length_le (Nat.le_of_eq hplen), htake]
    simp

/-- Pushing extends the represented sequence by the pushed
element. -/
theorem repr_push {a : DynArray} {vals : List (List Nat)} {v : List Nat}
    (hr : ReprArr a vals) (hv : v.length = a.size) :
    ReprArr (push_dyn_array a v) (vals ++ [v]) := by
  obtain ⟨hg, hlt⟩ := repr_grow hr
  exact repr_write hg hlt (by rw [size_grow]; exact hv)

theorem repr_new (size : Nat) : ReprArr (new_dyn_array size) [] := by
  refine ⟨⟨by simp [new_dyn_array], ?_, by simp [new_dyn_array]⟩, by simp [new_dyn_array],
    by simp, by simp [new_dyn_array]⟩
  simp [new_dyn_array]
  ring

/-- The bytes of the `i`-th stored element, read straight from the flat
buffer, are the `i`-th element of the represented sequence. -/
theorem flatten_segment {n : Nat} {vals : List (List Nat)}
    (h : ∀ v ∈ vals, v.length = n) :
    ∀ i, i < vals.length → (vals.flatten.drop (n * i)).take n = vals.getD i [] := by
  induction vals with
  | nil => intro i hi; simp at hi
  | cons v vs ih =>
    intro i hi
    cases i with
    | zero =>
      simp only [Nat.mul_zero, List.drop_zero, List.flatten_cons, List.getD, List.getElem?_cons_zero]
      rw [List.take_append_eq_append_take, List.take_of_length_le (by rw [h v (by simp)]),
        h v (by simp), Nat.sub_self, List.take_zero, List.append_nil]
      rfl
    | succ j =>
      have hmul : n * (j + 1) = v.length + n * j := by rw [h v (by simp)]; ring
      simp only [List.flatten_cons, hmul]
      rw [← List.drop_drop, List.drop_left]
      have := ih (fun w hw => h w (by simp [hw])) j (by simpa using hi)
      rw [this]
      rfl

/-- Reading with `elementAt` returns exactly the pushed bytes for in-range indices and
`none` beyond `count`. -/
theorem elementAt_repr {a : DynArray} {vals : List (List Nat)}
    (hr : ReprArr a vals) (i : Nat) : elementAt a i = vals[i]? := by
  obtain ⟨⟨hcnt, hlen, hcap⟩, hcv, hsz, htake⟩ := hr
  unfold elementAt
  by_cases hi : i < a.count
  · simp only [if_pos hi]
    have hiv : i < vals.length := by omega
    have hseg := flatten_segment hsz i hiv
    have hstep : readBytes a.items (a.size * i) a.size =
        (vals.flatten.drop (a.size * i)).take a.size := by
      unfold readBytes
      rw [← htake, List.drop_take]
      rw [List.take_take, Nat.min_eq_left]
      have h1 : a.size * (i + 1) ≤ a.size * a.count := Nat.mul_le_mul_left _ (by omega)
      rw [Nat.mul_succ] at h1
      omega
    rw [hstep, hseg, List.getD_eq_getElem?_getD, List.getElem?_eq_getElem hiv]
    rfl
  · simp only [if_neg hi]
    rw [List.getElem?_eq_none (by omega)]

theorem cap_grow (a : DynArray) :
    (grow a).cap = if a.cap ≤ a.count then a.cap * 2 else a.cap := by
  unfold grow; split <;> rfl

theorem cap_push_eq_cap_grow (a : DynArray) (v : List Nat) :
    (push_dyn_array a v).cap = (grow a).cap := rfl

/-- The structural invariant survives a growth step, which never shrinks
the capacity and always leaves a free slot. -/
theorem inv_grow {a : DynArray} (h : Inv a) :
    Inv (grow a) ∧ (grow a).count < (grow a).cap ∧ a.cap ≤ (grow a).cap := by
  obtain ⟨hcnt, hlen, hcap⟩ := h
  unfold grow
  by_cases hful : a.cap ≤ a.count
  · have hceq : a.count = a.cap := Nat.le_antisymm hcnt hful
    have hbytes : a.size * a.count ≤ a.cap * a.size := by
      rw [hceq, Nat.mul_comm]
    simp only [if_pos hful]
    have htklen : (a.items.take (a.size * a.count)).length = a.size * a.count := by
      rw [List.length_take, hlen]
      exact Nat.min_eq_left hbytes
    have hsub : a.size * a.count ≤ a.cap * 2 * a.size := by
      calc a.size * a.count ≤ a.cap * a.size := hbytes
        _ ≤ a.cap * 2 * a.size := Nat.mul_le_mul_right _ (by omega)
    refine ⟨⟨?_, ?_, ?_⟩, ?_, ?_⟩
    · show a.count ≤ a.cap * 2
      omega
    · simp only [List.length_append, List.length_replicate, htklen]
      omega
    · show 0 < a.cap * 2
      omega
    · show a.count < a.cap * 2
      omega
    · show a.cap ≤ a.cap * 2
      omega
  · simp only [if_neg hful]
    exact ⟨⟨hcnt, hlen, hcap⟩, by omega, Nat.le_refl _⟩

/-- The structural invariant survives the write step of a push. -/
theorem inv_write {g : DynArray} {v : List Nat}
    (hinv : Inv g) (hlt : g.count < g.cap) (hv : v.length = g.size) :
    Inv { g with items := writeBytes g.items (g.size * g.count) v, count := g.count + 1 } := by
  obtain ⟨hcnt, hlen, hcap⟩ := hinv
  have hb1 : g.size * g.count + g.size ≤ g.items.length := by
    rw [hlen]
    calc g.size * g.count + g.size = g.size * (g.count + 1) := by ring
      _ ≤ g.size * g.cap := Nat.mul_le_mul_left _ hlt
      _ = g.cap * g.size := Nat.mul_comm _ _
  refine ⟨by show g.count + 1 ≤ g.cap; omega, ?_, hcap⟩
  show (writeBytes g.items (g.size * g.count) v).length = g.cap * g.size
  rw [length_writeBytes (by omega), hlen]

/-- The structural invariant survives a push, and the capacity never
shrinks. -/
theorem inv_push {a : DynArray} {v : List Nat} (hinv : Inv a) (hv : v.length = a.size) :
    Inv (push_dyn_array a v) ∧ a.cap ≤ (push_dyn_array a v).cap := by
  obtain ⟨hg, hlt, hmono⟩ := inv_grow hinv
  refine ⟨inv_write hg hlt (by rw [size_grow]; exact hv), ?_⟩
  rw [cap_push_eq_cap_grow]
  exact hmono

/-- A sequence of pushes extends the represented sequence in order. -/
theorem pushAll_repr : ∀ (vals : List (List Nat)) (a : DynArray) (acc : List (List Nat)),
    ReprArr a acc → (∀ v ∈ vals, v.length = a.size) →
    ReprArr (pushAll a vals) (acc ++ vals)
  | [], a, acc, hr, _ => by simpa [pushAll] using hr
  | v :: vs, a, acc, hr, hlen => by
    have h1 : ReprArr (push_dyn_array a v) (acc ++ [v]) :=
      repr_push hr (hlen v (by simp))
    have h2 := pushAll_repr vs (push_dyn_array a v) (acc ++ [v]) h1
      (fun w hw => by rw [size_push]; exact hlen w (by simp [hw]))
    rw [show acc ++ v :: vs = (acc ++ [v]) ++ vs by simp]
    exact h2

theorem pop_count_zero {a : DynArray} {popped : List Nat} (h : a.count = 0) :
    pop_dyn_array a popped = (a, popped, 0) := by
  unfold pop_dyn_array
  rw [if_pos h]

/-- Popping a represented non-empty array removes and returns exactly its
last element, overwriting the whole out-buffer with its bytes. -/
theorem pop_repr_last {a : DynArray} {vals : List (List Nat)} {v popped : List Nat}
    (hr : ReprArr a vals) (hv : vals.getLast? = some v) (hp : popped.length = a.size) :
    pop_dyn_array a popped = ({ a with count := a.count - 1 }, v, 1) := by
  have hvmem : v ∈ vals := List.mem_of_getLast?_eq_some hv
  have hvlen : v.length = a.size := hr.2.2.1 v hvmem
  have hcv : a.count = vals.length := hr.2.1
  have hne : vals ≠ [] := by
    intro he
    rw [he] at hv
    simp at hv
  have hpos : 0 < a.count := by
    rw [hcv]
    exact List.length_pos.mpr hne
  have h1 : elementAt a (a.count - 1) = some (readBytes a.items (a.size * (a.count - 1)) a.size) := by
    unfold elementAt
    rw [if_pos (by omega)]
  have h2 : vals[(a.count - 1)]? = some v := by
    rw [hcv, ← List.getLast?_eq_getElem?]
    exact hv
  have h3 : readBytes a.items (a.size * (a.count - 1)) a.size = v := by
    have := elementAt_repr hr (a.count - 1)
    rw [h1, h2] at this
    exact Option.some.inj this
  unfold pop_dyn_array
  rw [if_neg (by omega)]
  show ({ a with count := a.count - 1 },
    writeBytes popped 0 (readBytes a.items ((a.count - 1) * a.size) a.size), 1) = _
  rw [Nat.mul_comm (a.count - 1) a.size, h3]
  unfold writeBytes
  rw [List.take_zero, List.drop_eq_nil_of_le (by omega), List.nil_append, List.append_nil]

/-- C1: for every sequence of pushes on a `DynamicArray` created with
element size `n`, afterwards `count` equals the number of pushes, and for
each `i < count` the element stored at index `i` is exactly the `n` bytes
passed to the `i`-th push, in push order — data survives every growth
reallocation. -/
theorem C1_push_sequence (size : Nat) (vals : List (List Nat))
    (hlen : ∀ v ∈ vals, v.length = size) :
    (pushAll (new_dyn_array size) vals).count = vals.length ∧
    ∀ i : Nat, i < vals.length → elementAt (pushAll (new_dyn_array size) vals) i = vals[i]? := by
  have hr := pushAll_repr vals (new_dyn_array size) [] (repr_new size) hlen
  rw [List.nil_append] at hr
  exact ⟨hr.2.1, fun i _ => elementAt_repr hr i⟩

theorem C1_witness :
    (∀ v ∈ ([[1, 2], [3, 4], [5, 6]] : List (List Nat)), v.length = 2) ∧
    ((pushAll (new_dyn_array 2) [[1, 2], [3, 4], [5, 6]]).count = 3 ∧
      ∀ i : Nat, i < 3 →
        elementAt (pushAll (new_dyn_array 2) [[1, 2], [3, 4], [5, 6]]) i =
          [[1, 2], [3, 4], [5, 6]][i]?) :=
  ⟨by decide, C1_push_sequence 2 [[1, 2], [3, 4], [5, 6]] (by decide)⟩

/-- C2: a push on a full array (`count = cap`) doubles the capacity
exactly, preserves every stored element byte-for-byte across the
reallocation, appends the new element at index `count` and increments
`count`; consequently pushing `2k+1` elements into a fresh array (initial
capacity 2) leaves `cap ≥ 2k+1` with all elements retrievable unchanged. -/
theorem C2_growth :
    (∀ (a : DynArray) (vals : List (List Nat)) (v : List Nat),
      ReprArr a vals → v.length = a.size → a.count = a.cap →
      (push_dyn_array a v).cap = a.cap * 2 ∧
      (push_dyn_array a v).count = a.count + 1 ∧
      (∀ i : Nat, i < a.count → elementAt (push_dyn_array a v) i = vals[i]?) ∧
      elementAt (push_dyn_array a v) a.count = some v) ∧
    (∀ (k size : Nat) (vals : List (List Nat)),
      vals.length = 2 * k + 1 → (∀ w ∈ vals, w.length = size) →
      2 * k + 1 ≤ (pushAll (new_dyn_array size) vals).cap ∧
      ∀ i : Nat, i < 2 * k + 1 → elementAt (pushAll (new_dyn_array size) vals) i = vals[i]?) := by
  constructor
  · intro a vals v hr hv hful
    have hcv : a.count = vals.length := hr.2.1
    have hr2 := repr_push hr hv
    refine ⟨?_, count_push a v, ?_, ?_⟩
    · rw [cap_push_eq_cap_grow, cap_grow, if_pos (Nat.le_of_eq hful.symm)]
    · intro i hi
      rw [elementAt_repr hr2 i, List.getElem?_append_left (by omega)]
    · rw [elementAt_repr hr2 a.count, hcv, List.getElem?_concat_length]
  · intro k size vals hk hlen
    have hr := pushAll_repr vals (new_dyn_array size) [] (repr_new size) hlen
    rw [List.nil_append] at hr
    have hinv : (pushAll (new_dyn_array size) vals).count ≤ (pushAll (new_dyn_array size) vals).cap :=
      hr.1.1
    have hcv : (pushAll (new_dyn_array size) vals).count = vals.length := hr.2.1
    exact ⟨by omega, fun i _ => elementAt_repr hr i⟩

theorem C2_witness :
    ReprArr (pushAll (new_dyn_array 1) [[7], [8]]) [[7], [8]] ∧
    (push_dyn_array (pushAll (new_dyn_array 1) [[7], [8]]) [9]).cap = 4 ∧
    elementAt (push_dyn_array (pushAll (new_dyn_array 1) [[7], [8]]) [9]) 2 = some [9] ∧
    2 * 1 + 1 ≤ (pushAll (new_dyn_array 1) [[7], [8], [9]]).cap := by
  refine ⟨by decide, ?_, ?_, ?_⟩
  · have h := (C2_growth.1 (pushAll (new_dyn_array 1) [[7], [8]]) [[7], [8]] [9]
      (by decide) (by decide) (by decide)).1
    rw [h]
    decide
  · have h := (C2_growth.1 (pushAll (new_dyn_array 1) [[7], [8]]) [[7], [8]] [9]
      (by decide) (by decide) (by decide)).2.2.2
    simpa using h
  · exact (C2_growth.2 1 1 [[7], [8], [9]] (by decide) (by decide)).1

/-- C3: `pop` on an empty array returns 0 (false) and leaves the caller's
out-buffer completely untouched; on a non-empty array it copies the bytes
of the element at index `count - 1` (the last pushed element) into the
out-buffer, decrements `count` by one and returns 1 (true) — the empty
case is reported only through the return code. -/
theorem C3_pop (a : DynArray) (vals : List (List Nat)) (popped : List Nat)
    (hr : ReprArr a vals) (hp : popped.length = a.size) :
    (a.count = 0 → pop_dyn_array a popped = (a, popped, 0)) ∧
    (0 < a.count → ∀ v, vals.getLast? = some v →
      pop_dyn_array a popped = ({ a with count := a.count - 1 }, v, 1)) :=
  ⟨fun h => pop_count_zero h, fun _ _ hv => pop_repr_last hr hv hp⟩

theorem C3_witness :
    (ReprArr (new_dyn_array 2) [] ∧ ([0, 0] : List Nat).length = (new_dyn_array 2).size) ∧
    (((new_dyn_array 2).count = 0 →
        pop_dyn_array (new_dyn_array 2) [0, 0] = (new_dyn_array 2, [0, 0], 0)) ∧
      (0 < (new_dyn_array 2).count → ∀ v, ([] : List (List Nat)).getLast? = some v →
        pop_dyn_array (new_dyn_array 2) [0, 0] =
          ({ new_dyn_array 2 with count := (new_dyn_array 2).count - 1 }, v, 1))) :=
  ⟨⟨by decide, by decide⟩, C3_pop (new_dyn_array 2) [] [0, 0] (by decide) (by decide)⟩

/-- C6: pushing a value and immediately popping into a fresh buffer yields
exactly the pushed bytes, and the resulting `count` equals the `count`
before the push (round-trip law). -/
theorem C6_push_pop_roundtrip (a : DynArray) (vals : List (List Nat)) (v popped : List Nat)
    (hr : ReprArr a vals) (hv : v.length = a.size) (hp : popped.length = a.size) :
    pop_dyn_array (push_dyn_array a v) popped =
      ({ push_dyn_array a v with count := a.count }, v, 1) ∧
    (pop_dyn_array (push_dyn_array a v) popped).1.count = a.count := by
  have hr2 := repr_push hr hv
  have hlast : (vals ++ [v]).getLast? = some v := List.getLast?_concat _
  have hp2 : popped.length = (push_dyn_array a v).size := by
    rw [size_push]
    exact hp
  have h := pop_repr_last hr2 hlast hp2
  constructor
  · rw [h, count_push]
    simp
  · rw [h]
    show (push_dyn_array a v).count - 1 = a.count
    rw [count_push]
    omega

theorem C6_witness :
    (ReprArr (new_dyn_array 2) [] ∧ ([7, 9] : List Nat).length = (new_dyn_array 2).size ∧
      ([5, 5] : List Nat).length = (new_dyn_array 2).size) ∧
    (pop_dyn_array (push_dyn_array (new_dyn_array 2) [7, 9]) [5, 5] =
        ({ push_dyn_array (new_dyn_array 2) [7, 9] with count := (new_dyn_array 2).count }, [7, 9], 1) ∧
      (pop_dyn_array (push_dyn_array (new_dyn_array 2) [7, 9]) [5, 5]).1.count =
        (new_dyn_array 2).count) :=
  ⟨⟨by decide, by decide, by decide⟩,
    C6_push_pop_roundtrip (new_dyn_array 2) [] [7, 9] [5, 5] (by decide) (by decide) (by decide)⟩

/-- C7: `elementAt` succeeds exactly when the index is below `count`, in
which case it returns the bytes stored for that index; for any index at or
beyond `count` it fails (`IndexOutOfRange`, modelled as `none`) instead of
returning data. -/
theorem C7_elementAt_bounds (a : DynArray) (vals : List (List Nat)) (i : Nat)
    (hr : ReprArr a vals) :
    ((elementAt a i).isSome ↔ i < a.count) ∧ elementAt a i = vals[i]? := by
  refine ⟨?_, elementAt_repr hr i⟩
  unfold elementAt
  by_cases hi : i < a.count
  · simp [hi]
  · simp [hi]

theorem C7_witness :
    ReprArr (pushAll (new_dyn_array 1) [[4]]) [[4]] ∧
    (((elementAt (pushAll (new_dyn_array 1) [[4]]) 5).isSome ↔
        5 < (pushAll (new_dyn_array 1) [[4]]).count) ∧
      elementAt (pushAll (new_dyn_array 1) [[4]]) 5 = ([[4]] : List (List Nat))[5]?) :=
  ⟨by decide, C7_elementAt_bounds (pushAll (new_dyn_array 1) [[4]]) [[4]] 5 (by decide)⟩

/-- C8: `new_dyn_array`, `push_dyn_array` and `pop_dyn_array` all preserve
the invariant `count ≤ cap` together with the buffer-extent contract
(`items` holds `cap * size` bytes, `cap > 0`), and no operation ever
decreases `cap`. -/
theorem C8_invariants :
    (∀ size, Inv (new_dyn_array size)) ∧
    (∀ (a : DynArray) (v : List Nat), Inv a → v.length = a.size →
      Inv (push_dyn_array a v) ∧ a.cap ≤ (push_dyn_array a v).cap) ∧
    (∀ (a : DynArray) (popped : List Nat), Inv a →
      Inv (pop_dyn_array a popped).1 ∧ (pop_dyn_array a popped).1.cap = a.cap) := by
  refine ⟨fun size => (repr_new size).1, fun a v hinv hv => inv_push hinv hv, ?_⟩
  intro a popped hinv
  obtain ⟨hcnt, hlen, hcap⟩ := hinv
  unfold pop_dyn_array
  by_cases h : a.count = 0
  · rw [if_pos h]
    exact ⟨⟨hcnt, hlen, hcap⟩, rfl⟩
  · rw [if_neg h]
    refine ⟨⟨?_, ?_, ?_⟩, ?_⟩
    · show a.count - 1 ≤ a.cap
      omega
    · exact hlen
    · exact hcap
    · rfl

theorem C8_witness :
    (Inv (new_dyn_array 3) ∧ ([1, 2, 3] : List Nat).length = (new_dyn_array 3).size) ∧
    (Inv (push_dyn_array (new_dyn_array 3) [1, 2, 3]) ∧
      (new_dyn_array 3).cap ≤ (push_dyn_array (new_dyn_array 3) [1, 2, 3]).cap) ∧
    (Inv (pop_dyn_array (new_dyn_array 3) [0, 0, 0]).1 ∧
      (pop_dyn_array (new_dyn_array 3) [0, 0, 0]).1.cap = (new_dyn_array 3).cap) :=
  ⟨⟨by decide, by decide⟩,
    C8_invariants.2.1 (new_dyn_array 3) [1, 2, 3] (by decide) (by decide),
    C8_invariants.2.2 (new_dyn_array 3) [0, 0, 0] (by decide)⟩

end DynArr

namespace LL

theorem chain_ne_nil {h : Heap} {addrs : List Nat} (hc : Chain h addrs) : addrs ≠ [] := by
  intro he
  rw [he] at hc
  simp [Chain] at hc

/-- Every address on a chain is an allocated heap index. -/
theorem chain_lt (h : Heap) : ∀ addrs, Chain h addrs → ∀ x ∈ addrs, x < h.length
  | [], hc, _, _ => by simp [Chain] at hc
  | [a], hc, x, hx => by
    simp only [Chain] at hc
    obtain ⟨nd, hnd, -⟩ := Option.map_eq_some'.mp hc
    rw [List.mem_singleton] at hx
    subst hx
    exact (List.getElem?_eq_some.mp hnd).1
  | a :: b :: rest, hc, x, hx => by
    simp only [Chain] at hc
    obtain ⟨ha, hrest⟩ := hc
    rcases List.mem_cons.mp hx with hx | hx
    · obtain ⟨nd, hnd, -⟩ := Option.map_eq_some'.mp ha
      subst hx
      exact (List.getElem?_eq_some.mp hnd).1
    · exact chain_lt h (b :: rest) hrest x hx

/-- Appending a fresh node to the heap does not disturb a chain. -/
theorem chain_extend {h : Heap} (h2 : Heap) : ∀ addrs, Chain h addrs → Chain (h ++ h2) addrs
  | [], hc => by simp [Chain] at hc
  | [a], hc => by
    simp only [Chain] at hc ⊢
    rw [List.getElem?_append_left (chain_lt h [a] hc a (by simp))]
    exact hc
  | a :: b :: rest, hc => by
    simp only [Chain] at hc ⊢
    obtain ⟨ha, hrest⟩ := hc
    refine ⟨?_, chain_extend h2 (b :: rest) hrest⟩
    rw [List.getElem?_append_left (chain_lt h (a :: b :: rest) ⟨ha, hrest⟩ a (by simp))]
    exact ha

/-- The last node of a chain has a `NULL` `next`. -/
theorem chain_last_next_none (h : Heap) :
    ∀ addrs t, Chain h addrs → addrs.getLast? = some t →
      (h[t]?).map IntNode.next = some none
  | [], _, hc, _ => by simp [Chain] at hc
  | [a], t, hc, hl => by
    simp only [List.getLast?_singleton, Option.some.injEq] at hl
    subst hl
    simpa [Chain] using hc
  | a :: b :: rest, t, hc, hl => by
    simp only [Chain] at hc
    rw [List.getLast?_cons_cons] at hl
    exact chain_last_next_none h (b :: rest) t hc.2 hl

/-- The first node of a chain is allocated. -/
theorem chain_head_isSome (h : Heap) :
    ∀ addrs a, Chain h addrs → addrs.head? = some a → (h[a]?).isSome
  | [], _, hc, _ => by simp [Chain] at hc
  | [a0], a, hc, hh => by
    simp only [List.head?_cons, Option.some.injEq] at hh
    subst hh
    simp only [Chain] at hc
    obtain ⟨nd, hnd, -⟩ := Option.map_eq_some'.mp hc
    simp [hnd]
  | a0 :: b :: rest, a, hc, hh => by
    simp only [List.head?_cons, Option.some.injEq] at hh
    subst hh
    simp only [Chain] at hc
    obtain ⟨nd, hnd, -⟩ := Option.map_eq_some'.mp hc.1
    simp [hnd]

/-- Two heaps whose nodes carry the same values along `addrs` give the
same `valuesAt`. -/
theorem valuesAt_congr {h h2 : Heap} {addrs : List Nat}
    (hx : ∀ x ∈ addrs, (h2[x]?).map IntNode.value = (h[x]?).map IntNode.value) :
    valuesAt h2 addrs = valuesAt h addrs := by
  unfold valuesAt
  exact List.map_congr_left fun a ha => by rw [hx a ha]

/-- Next links are deterministic, so a chain is determined by its first
address. -/
theorem chain_det (h : Heap) :
    ∀ (r1 r2 : List Nat) (a : Nat), Chain h (a :: r1) → Chain h (a :: r2) → r1 = r2
  | [], [], _, _, _ => rfl
  | [], b2 :: rest2, a, h1, h2 => by
    simp only [Chain] at h1 h2
    rw [h1] at h2
    simp at h2
  | b1 :: rest1, [], a, h1, h2 => by
    simp only [Chain] at h1 h2
    rw [h2] at h1
    simp at h1
  | b1 :: rest1, b2 :: rest2, a, h1, h2 => by
    simp only [Chain] at h1 h2
    obtain ⟨ha1, hr1⟩ := h1
    obtain ⟨ha2, hr2⟩ := h2
    rw [ha1] at ha2
    simp only [Option.some.injEq] at ha2
    subst ha2
    rw [chain_det h rest1 rest2 b1 hr1 hr2]

/-- Any member of a chain starts a chain that is a suffix of it. -/
theorem chain_suffix_of_mem (h : Heap) :
    ∀ addrs x, Chain h addrs → x ∈ addrs →
      ∃ s, (x :: s) <:+ addrs ∧ Chain h (x :: s)
  | [], _, hc, _ => by simp [Chain] at hc
  | [a], x, hc, hx => by
    rw [List.mem_singleton] at hx
    subst hx
    exact ⟨[], List.suffix_refl _, hc⟩
  | a :: b :: rest, x, hc, hx => by
    rcases List.mem_cons.mp hx with hx | hx
    · subst hx
      exact ⟨b :: rest, List.suffix_refl _, hc⟩
    · simp only [Chain] at hc
      obtain ⟨s, hsuf, hcs⟩ := chain_suffix_of_mem h (b :: rest) x hc.2 hx
      exact ⟨s, hsuf.trans (List.suffix_cons a (b :: rest)), hcs⟩

/-- A chain never revisits an address: the `NULL`-terminated path is
cycle-free. -/
theorem chain_nodup (h : Heap) : ∀ addrs, Chain h addrs → addrs.Nodup
  | [], hc => by simp [Chain] at hc
  | [a], _ => by simp
  | a :: b :: rest, hc => by
    simp only [Chain] at hc
    obtain ⟨ha, hrest⟩ := hc
    refine List.nodup_cons.mpr ⟨?_, chain_nodup h (b :: rest) hrest⟩
    intro hmem
    obtain ⟨s, hsuf, hcs⟩ := chain_suffix_of_mem h (b :: rest) a hrest hmem
    have hdet : s = b :: rest := chain_det h s (b :: rest) a hcs ⟨ha, hrest⟩
    have hlen := hsuf.length_le
    rw [hdet] at hlen
    simp at hlen

end LL

namespace LL

/-- Re-pointing the `next` of a chain's last node at the freshly appended
node extends the chain by the fresh node's address (the non-empty branch
of `push_node`). -/
theorem chain_set_snoc (h : Heap) (v : Int) (t : Nat) (ndt : IntNode)
    (htlt : t < h.length)
    (hht : h[t]? = some ndt) (hndtnext : ndt.next = none) :
    ∀ addrs, Chain h addrs → addrs.getLast? = some t →
      Chain ((h ++ [({ next := none, value := v } : IntNode)]).set t
          { ndt with next := some h.length })
        (addrs ++ [h.length])
  | [], hc, _ => by simp [Chain] at hc
  | [a], hc, hl => by
    have heq : a = t := by simpa using hl
    subst heq
    have hlen1 : a < (h ++ [(⟨none, v⟩ : IntNode)]).length := by
      simp
      omega
    have hane : a ≠ h.length := by omega
    simp only [List.singleton_append]
    refine ⟨?_, ?_⟩
    · rw [List.getElem?_set_self hlen1]
      rfl
    · show (((h ++ [(⟨none, v⟩ : IntNode)]).set a
        { ndt with next := some h.length })[h.length]?).map IntNode.next = some none
      rw [List.getElem?_set_ne hane, List.getElem?_concat_length]
      rfl
  | a :: b :: rest, hc, hl => by
    simp only [Chain] at hc
    obtain ⟨ha, hrest⟩ := hc
    rw [List.getLast?_cons_cons] at hl
    have halt : a < h.length :=
      chain_lt h (a :: b :: rest) ⟨ha, hrest⟩ a (by simp)
    have hane : t ≠ a := by
      intro he
      rw [← he, hht] at ha
      simp [hndtnext] at ha
    have ih := chain_set_snoc h v t ndt htlt hht hndtnext (b :: rest) hrest hl
    simp only [List.cons_append, Chain] at ih ⊢
    refine ⟨?_, ih⟩
    rw [List.getElem?_set_ne hane, List.getElem?_append_left halt]
    exact ha

/-- The values visited by the `walk_and_print_list` recursion along a
chain are exactly the values stored on the chain, in order. -/
theorem walkFrom_chain (h : Heap) :
    ∀ addrs a fuel, Chain h addrs → addrs.head? = some a → addrs.length ≤ fuel →
      walkFrom h fuel a = some (valuesAt h addrs)
  | [], _, _, hc, _, _ => by simp [Chain] at hc
  | [a0], a, fuel, hc, hh, hf => by
    simp only [List.head?_cons, Option.some.injEq] at hh
    subst hh
    simp only [Chain] at hc
    obtain ⟨nd, hnd, hnext⟩ := Option.map_eq_some'.mp hc
    cases fuel with
    | zero => simp at hf
    | succ f =>
      simp only [walkFrom, hnd, hnext, valuesAt, List.map_cons, List.map_nil]
      rfl
  | a0 :: b :: rest, a, fuel, hc, hh, hf => by
    simp only [List.head?_cons, Option.some.injEq] at hh
    subst hh
    simp only [Chain] at hc
    obtain ⟨ha, hrest⟩ := hc
    obtain ⟨nd, hnd, hnext⟩ := Option.map_eq_some'.mp ha
    cases fuel with
    | zero => simp at hf
    | succ f =>
      have hrec := walkFrom_chain h (b :: rest) b f hrest (by simp)
        (by simp only [List.length_cons] at hf ⊢; omega)
      simp only [walkFrom, hnd, hnext, hrec, Option.map_some']
      simp only [valuesAt, List.map_cons]
      rw [hnd]
      rfl

theorem wf_empty : Wf [] empty_list [] := by
  simp [Wf, empty_list]

/-- Full functional description of `push_node` on a well-formed list
state: it always succeeds, allocates exactly one node (value `v`, no
successor) at the next free address, links it after the old tail when the
list was non-empty (otherwise makes it the head), makes it the tail, and
preserves all previously stored values. -/
theorem push_node_wf {h : Heap} {l : IntList} (v : Int) :
    ∀ addrs, Wf h l addrs →
    ∃ h2 l2, push_node h l v = some (h2, l2) ∧
      Wf h2 l2 (addrs ++ [h.length]) ∧
      h2.length = h.length + 1 ∧
      valuesAt h2 (addrs ++ [h.length]) = valuesAt h addrs ++ [v] ∧
      h2[h.length]? = some { next := none, value := v } ∧
      l2.tail = some h.length ∧
      (l.head = none → l2.head = some h.length) ∧
      (∀ t0, l.head ≠ none → l.tail = some t0 →
        l2.head = l.head ∧ (h2[t0]?).map IntNode.next = some (some h.length))
  | [], hwf => by
    simp only [Wf] at hwf
    obtain ⟨hhead, htail⟩ := hwf
    refine ⟨h ++ [(⟨none, v⟩ : IntNode)],
      { head := some h.length, tail := some h.length }, ?_, ?_, by simp, ?_, ?_, rfl,
      fun _ => rfl, ?_⟩
    · simp [push_node, hhead]
    · refine ⟨rfl, rfl, ?_⟩
      show ((h ++ [(⟨none, v⟩ : IntNode)])[h.length]?).map IntNode.next = some none
      rw [List.getElem?_concat_length]
      rfl
    · simp [valuesAt, List.getElem?_concat_length]
    · exact List.getElem?_concat_length h _
    · intro t0 hne _
      exact absurd hhead hne
  | a :: rest, hwf => by
    simp only [Wf] at hwf
    obtain ⟨hhead, htail, hchain⟩ := hwf
    obtain ⟨t, ht⟩ : ∃ t, (a :: rest).getLast? = some t := by
      cases hgl : (a :: rest).getLast? with
      | none =>
        rw [List.getLast?_eq_none_iff] at hgl
        exact absurd hgl (by simp)
      | some t => exact ⟨t, rfl⟩
    have htail2 : l.tail = some t := htail.trans ht
    have htmem : t ∈ a :: rest := List.mem_of_getLast?_eq_some ht
    have htlt : t < h.length := chain_lt h (a :: rest) hchain t htmem
    have htnext := chain_last_next_none h (a :: rest) t hchain ht
    obtain ⟨ndt, hndt, hndtnext⟩ := Option.map_eq_some'.mp htnext
    have h1t : (h ++ [(⟨none, v⟩ : IntNode)])[t]? = some ndt := by
      rw [List.getElem?_append_left htlt]
      exact hndt
    have hlen1 : t < (h ++ [(⟨none, v⟩ : IntNode)]).length := by
      simp
      omega
    have htne : t ≠ h.length := by omega
    refine ⟨(h ++ [(⟨none, v⟩ : IntNode)]).set t { ndt with next := some h.length },
      { head := l.head, tail := some h.length }, ?_, ?_, by simp, ?_, ?_, rfl, ?_, ?_⟩
    · simp [push_node, hhead, htail2, h1t]
    · have hch := chain_set_snoc h v t ndt htlt hndt hndtnext (a :: rest) hchain ht
      simp only [List.cons_append] at hch ⊢
      refine ⟨hhead, ?_, hch⟩
      rw [show a :: (rest ++ [h.length]) = (a :: rest) ++ [h.length] by simp,
        List.getLast?_concat]
    · have hsplit : ∀ (hh : Heap) (xs ys : List Nat),
          valuesAt hh (xs ++ ys) = valuesAt hh xs ++ valuesAt hh ys := by
        intro hh xs ys
        simp [valuesAt]
      have hmid : valuesAt ((h ++ [(⟨none, v⟩ : IntNode)]).set t
          { ndt with next := some h.length }) (a :: rest) = valuesAt h (a :: rest) := by
        apply valuesAt_congr
        intro x hx
        have hxlt : x < h.length := chain_lt h (a :: rest) hchain x hx
        by_cases hxt : t = x
        · subst hxt
          rw [List.getElem?_set_self hlen1, hndt]
          rfl
        · rw [List.getElem?_set_ne hxt, List.getElem?_append_left hxlt]
      have hnewv : valuesAt ((h ++ [(⟨none, v⟩ : IntNode)]).set t
          { ndt with next := some h.length }) [h.length] = [v] := by
        simp only [valuesAt, List.map_cons, List.map_nil]
        rw [List.getElem?_set_ne htne, List.getElem?_concat_length]
        rfl
      rw [hsplit, hmid, hnewv]
    · show ((h ++ [(⟨none, v⟩ : IntNode)]).set t
        { ndt with next := some h.length })[h.length]? = some { next := none, value := v }
      rw [List.getElem?_set_ne htne, List.getElem?_concat_length]
    · intro hnone
      rw [hnone] at hhead
      exact absurd hhead (by simp)
    · intro t0 _ ht0
      rw [htail2] at ht0
      injection ht0 with ht0
      subst ht0
      refine ⟨rfl, ?_⟩
      rw [List.getElem?_set_self hlen1]
      rfl

end LL

namespace LL

/-- Pushing a whole sequence from a well-formed state succeeds, allocates
the nodes at consecutive addresses, and appends exactly the pushed values
to the stored sequence. -/
theorem pushAllNodes_wf : ∀ (vs : List Int) (h : Heap) (l : IntList) (addrs : List Nat),
    Wf h l addrs →
    ∃ h2 l2, pushAllNodes h l vs = some (h2, l2) ∧
      Wf h2 l2 (addrs ++ List.range' h.length vs.length) ∧
      h2.length = h.length + vs.length ∧
      valuesAt h2 (addrs ++ List.range' h.length vs.length) = valuesAt h addrs ++ vs
  | [], h, l, addrs, hwf => ⟨h, l, rfl, by simpa using hwf, by simp, by simp⟩
  | v :: vs, h, l, addrs, hwf => by
    obtain ⟨h1, l1, hpush, hwf1, hlen1, hvals1, -, -, -, -⟩ := push_node_wf v addrs hwf
    obtain ⟨h2, l2, hrun, hwf2, hlen2, hvals2⟩ :=
      pushAllNodes_wf vs h1 l1 (addrs ++ [h.length]) hwf1
    rw [hlen1] at hwf2 hlen2 hvals2
    have hlst : addrs ++ List.range' h.length (vs.length + 1) =
        (addrs ++ [h.length]) ++ List.range' (h.length + 1) vs.length := by
      rw [List.range'_succ]
      simp
    refine ⟨h2, l2, ?_, ?_, ?_, ?_⟩
    · show pushAllNodes h l (v :: vs) = some (h2, l2)
      simp only [pushAllNodes, hpush]
      exact hrun
    · simp only [List.length_cons, hlst]
      exact hwf2
    · simp only [List.length_cons]
      omega
    · simp only [List.length_cons, hlst]
      rw [hvals2, hvals1]
      simp

/-- C4: appending a sequence of values to an initially empty list and then
traversing from the head visits exactly the appended values, once each, in
append order; the head is the first allocated node and the tail is the
node created by the last append, holding the first and last appended
values respectively. -/
theorem C4_append_traverse (vs : List Int) (h2 : Heap) (l2 : IntList)
    (hne : vs ≠ []) (hrun : pushAllNodes [] empty_list vs = some (h2, l2)) :
    walk_and_print_list h2 vs.length l2.head = some vs ∧
    l2.head = some 0 ∧ l2.tail = some (vs.length - 1) ∧
    (h2[0]?).map IntNode.value = vs.head? ∧
    (h2[vs.length - 1]?).map IntNode.value = vs.getLast? := by
  obtain ⟨h3, l3, hrun2, hwf, hlen, hvals⟩ := pushAllNodes_wf vs [] empty_list [] wf_empty
  rw [hrun] at hrun2
  injection hrun2 with hpair
  rw [Prod.mk.injEq] at hpair
  obtain ⟨rfl, rfl⟩ := hpair
  obtain ⟨n, hn⟩ : ∃ n, vs.length = n + 1 := by
    cases vs with
    | nil => exact absurd rfl hne
    | cons w ws => exact ⟨ws.length, by simp⟩
  have hr0 : List.range' 0 vs.length = 0 :: List.range' 1 n := by
    rw [hn, List.range'_succ]
  simp only [List.length_nil, List.nil_append] at hwf hvals
  rw [hr0] at hwf
  have hvals2 : valuesAt h2 (0 :: List.range' 1 n) = vs := by
    rw [← hr0, hvals]
    simp [valuesAt]
  simp only [Wf] at hwf
  obtain ⟨hhead2, htail2, hchain⟩ := hwf
  have hlast : (0 :: List.range' 1 n).getLast? = some n := by
    rw [← hr0, hn, List.getLast?_eq_getElem?, List.length_range']
    have hlt : n + 1 - 1 < n + 1 := by omega
    rw [List.getElem?_range' 0 1 hlt]
    congr 1
    omega
  have hlen01 : (0 :: List.range' 1 n).length = vs.length := by
    simp [hn]
  have hwalk := walkFrom_chain h2 (0 :: List.range' 1 n) 0 vs.length hchain (by simp)
    (by rw [hlen01])
  rw [hvals2] at hwalk
  obtain ⟨nd0, hnd0⟩ := Option.isSome_iff_exists.mp
    (chain_head_isSome h2 (0 :: List.range' 1 n) 0 hchain (by simp))
  obtain ⟨ndn, hndn, -⟩ := Option.map_eq_some'.mp
    (chain_last_next_none h2 (0 :: List.range' 1 n) n hchain hlast)
  refine ⟨?_, hhead2, ?_, ?_, ?_⟩
  · rw [hhead2]
    exact hwalk
  · rw [htail2, hlast, hn]
    congr 1
  · have hh : vs.head? = some nd0.value := by
      rw [← hvals2]
      simp [valuesAt, hnd0]
    rw [hnd0, hh]
    rfl
  · have hg : vs.getLast? = some ndn.value := by
      rw [← hvals2]
      simp only [valuesAt, List.getLast?_map, hlast, Option.map_some', hndn]
      rfl
    have hidx : vs.length - 1 = n := by omega
    rw [hidx, hndn, hg]
    rfl

theorem C4_witness :
    (([5, 10, 20, 40] : List Int) ≠ [] ∧
      pushAllNodes [] empty_list [5, 10, 20, 40] =
        some ([⟨some 1, 5⟩, ⟨some 2, 10⟩, ⟨some 3, 20⟩, ⟨none, 40⟩],
          (⟨some 0, some 3⟩ : IntList))) ∧
    (walk_and_print_list [⟨some 1, 5⟩, ⟨some 2, 10⟩, ⟨some 3, 20⟩, ⟨none, 40⟩]
        ([5, 10, 20, 40] : List Int).length (⟨some 0, some 3⟩ : IntList).head =
          some [5, 10, 20, 40] ∧
      (⟨some 0, some 3⟩ : IntList).head = some 0 ∧
      (⟨some 0, some 3⟩ : IntList).tail = some (([5, 10, 20, 40] : List Int).length - 1) ∧
      (([⟨some 1, 5⟩, ⟨some 2, 10⟩, ⟨some 3, 20⟩, ⟨none, 40⟩] : Heap)[0]?).map IntNode.value =
        ([5, 10, 20, 40] : List Int).head? ∧
      (([⟨some 1, 5⟩, ⟨some 2, 10⟩, ⟨some 3, 20⟩, ⟨none, 40⟩] :
          Heap)[([5, 10, 20, 40] : List Int).length - 1]?).map IntNode.value =
        ([5, 10, 20, 40] : List Int).getLast?) :=
  ⟨⟨by decide, by decide⟩,
    C4_append_traverse [5, 10, 20, 40] _ _ (by decide) (by decide)⟩

end LL

namespace LL

/-- C5: on a well-formed list, `push_node` allocates exactly one new node
whose `next` is absent and whose value is the given integer; if `head` is
absent the new node becomes the head, otherwise the old tail's `next` is
set to the new node; in both cases the new node becomes the tail. -/
theorem C5_push_node (h : Heap) (l : IntList) (v : Int) (addrs : List Nat)
    (hwf : Wf h l addrs) :
    ∃ h2 l2, push_node h l v = some (h2, l2) ∧
      h2.length = h.length + 1 ∧
      h2[h.length]? = some { next := none, value := v } ∧
      l2.tail = some h.length ∧
      (l.head = none → l2.head = some h.length) ∧
      (∀ t0, l.head ≠ none → l.tail = some t0 →
        l2.head = l.head ∧ (h2[t0]?).map IntNode.next = some (some h.length)) := by
  obtain ⟨h2, l2, hp, -, hlen, -, hnode, htl, hh1, hh2⟩ := push_node_wf v addrs hwf
  exact ⟨h2, l2, hp, hlen, hnode, htl, hh1, hh2⟩

theorem C5_witness :
    Wf [⟨some 1, 5⟩, ⟨none, 10⟩] ⟨some 0, some 1⟩ [0, 1] ∧
    (∃ h2 l2, push_node [⟨some 1, 5⟩, ⟨none, 10⟩] ⟨some 0, some 1⟩ 20 = some (h2, l2) ∧
      h2.length = ([⟨some 1, 5⟩, ⟨none, 10⟩] : Heap).length + 1 ∧
      h2[([⟨some 1, 5⟩, ⟨none, 10⟩] : Heap).length]? = some { next := none, value := 20 } ∧
      l2.tail = some ([⟨some 1, 5⟩, ⟨none, 10⟩] : Heap).length ∧
      ((⟨some 0, some 1⟩ : IntList).head = none →
        l2.head = some ([⟨some 1, 5⟩, ⟨none, 10⟩] : Heap).length) ∧
      (∀ t0, (⟨some 0, some 1⟩ : IntList).head ≠ none →
        (⟨some 0, some 1⟩ : IntList).tail = some t0 →
        l2.head = (⟨some 0, some 1⟩ : IntList).head ∧
        (h2[t0]?).map IntNode.next =
          some (some ([⟨some 1, 5⟩, ⟨none, 10⟩] : Heap).length))) :=
  ⟨by decide, C5_push_node [⟨some 1, 5⟩, ⟨none, 10⟩] ⟨some 0, some 1⟩ 20 [0, 1] (by decide)⟩

/-- C9: the empty list is well formed; `push_node` preserves
well-formedness; and well-formedness entails the spec's invariants: an
absent head forces an absent tail and an empty chain, the tail's `next` is
always absent, the chain is cycle-free, and when the head is present the
chain runs from the head to the tail. -/
theorem C9_list_invariants :
    Wf [] empty_list [] ∧
    (∀ (h : Heap) (l : IntList) (v : Int) (addrs : List Nat), Wf h l addrs →
      ∃ h2 l2, push_node h l v = some (h2, l2) ∧ Wf h2 l2 (addrs ++ [h.length])) ∧
    (∀ (h : Heap) (l : IntList) (addrs : List Nat), Wf h l addrs →
      (l.head = none → l.tail = none ∧ addrs = []) ∧
      (∀ t, l.tail = some t → (h[t]?).map IntNode.next = some none) ∧
      addrs.Nodup ∧
      (∀ a, l.head = some a → addrs.head? = some a ∧ addrs.getLast? = l.tail)) := by
  refine ⟨wf_empty, ?_, ?_⟩
  · intro h l v addrs hwf
    obtain ⟨h2, l2, hp, hwf2, -, -, -, -, -, -⟩ := push_node_wf v addrs hwf
    exact ⟨h2, l2, hp, hwf2⟩
  · intro h l addrs hwf
    cases addrs with
    | nil =>
      simp only [Wf] at hwf
      obtain ⟨hh, ht⟩ := hwf
      refine ⟨fun _ => ⟨ht, rfl⟩, ?_, by simp, ?_⟩
      · intro t htt
        rw [ht] at htt
        simp at htt
      · intro a ha
        rw [hh] at ha
        simp at ha
    | cons a rest =>
      simp only [Wf] at hwf
      obtain ⟨hh, ht, hchain⟩ := hwf
      refine ⟨?_, ?_, chain_nodup h (a :: rest) hchain, ?_⟩
      · intro hnone
        rw [hnone] at hh
        simp at hh
      · intro t htt
        exact chain_last_next_none h (a :: rest) t hchain (ht.symm.trans htt)
      · intro a0 ha0
        rw [hh] at ha0
        injection ha0 with ha0
        subst ha0
        exact ⟨rfl, ht.symm⟩

theorem C9_witness :
    Wf [(⟨none, 5⟩ : IntNode)] ⟨some 0, some 0⟩ [0] ∧
    (∃ h2 l2, push_node [(⟨none, 5⟩ : IntNode)] ⟨some 0, some 0⟩ 7 = some (h2, l2) ∧
      Wf h2 l2 ([0] ++ [([(⟨none, 5⟩ : IntNode)] : Heap).length])) ∧
    (((⟨some 0, some 0⟩ : IntList).head = none →
        (⟨some 0, some 0⟩ : IntList).tail = none ∧ ([0] : List Nat) = []) ∧
      (∀ t, (⟨some 0, some 0⟩ : IntList).tail = some t →
        (([(⟨none, 5⟩ : IntNode)] : Heap)[t]?).map IntNode.next = some none) ∧
      ([0] : List Nat).Nodup ∧
      (∀ a, (⟨some 0, some 0⟩ : IntList).head = some a →
        ([0] : List Nat).head? = some a ∧
        ([0] : List Nat).getLast? = (⟨some 0, some 0⟩ : IntList).tail)) :=
  ⟨by decide,
    C9_list_invariants.2.1 [(⟨none, 5⟩ : IntNode)] ⟨some 0, some 0⟩ 7 [0] (by decide),
    C9_list_invariants.2.2 [(⟨none, 5⟩ : IntNode)] ⟨some 0, some 0⟩ [0] (by decide)⟩

/-- C10: the traversal has no path for an absent start node — walking from
`NULL` is a fault (`none`), outside the operation's domain — and from a
present node heading a chain it visits every chain node exactly once, in
order, so at least one node is always visited. -/
theorem C10_traversal_domain :
    (∀ (h : Heap) (fuel : Nat), walk_and_print_list h fuel none = none) ∧
    (∀ (h : Heap) (addrs : List Nat) (a : Nat) (fuel : Nat),
      Chain h addrs → addrs.head? = some a → addrs.length ≤ fuel →
      walk_and_print_list h fuel (some a) = some (valuesAt h addrs) ∧
      1 ≤ (valuesAt h addrs).length) := by
  refine ⟨fun h fuel => rfl, ?_⟩
  intro h addrs a fuel hc hh hf
  refine ⟨walkFrom_chain h addrs a fuel hc hh hf, ?_⟩
  have hlen : (valuesAt h addrs).length = addrs.length := by
    simp [valuesAt]
  rw [hlen]
  exact List.length_pos.mpr (chain_ne_nil hc)

theorem C10_witness :
    walk_and_print_list [(⟨none, 5⟩ : IntNode)] 3 none = none ∧
    (Chain [(⟨none, 5⟩ : IntNode)] [0] ∧
      (walk_and_print_list [(⟨none, 5⟩ : IntNode)] 1 (some 0) =
          some (valuesAt [(⟨none, 5⟩ : IntNode)] [0]) ∧
        1 ≤ (valuesAt [(⟨none, 5⟩ : IntNode)] [0]).length)) :=
  ⟨C10_traversal_domain.1 [(⟨none, 5⟩ : IntNode)] 3,
    by decide,
    C10_traversal_domain.2 [(⟨none, 5⟩ : IntNode)] [0] 0 1 (by decide) (by decide) (by decide)⟩

end LL
